import Mathlib

/-!
Verification of the depbank dependency discovery and version resolution
engine (src/lib.rs). The Rust code is shallowly embedded: file-system
paths are lists of path components, the file system itself is an abstract
oracle of existence and directory-ness, TOML parsing is taken as already
done (the data model of parsed manifests and lockfiles follows the serde
structures in the source), and HashMap values are modelled as association
lists built by repeated insertion with overwrite, which captures exactly
the key-value contents that the Rust code observes through get and insert.
-/

/-! ## Paths and the file system

A path is a list of components; join with a single component appends it.
The file system is an oracle, since the engine only asks two questions of
it for availability checks: does a path exist, and is it a directory.
-/

/-- A file-system path, as the list of its components. -/
abbrev FsPath := List String

/-- Abstract file system: the two predicates the availability checks use. -/
structure FileSystem where
  pathExists : FsPath → Bool
  isDir : FsPath → Bool

/-! ## Dependency and DependencyCollection (src/lib.rs lines 95-212) -/

/-- A dependency with its name and version, mirroring struct Dependency. -/
structure Dependency where
  name : String
  version : String
deriving DecidableEq, Repr

/-- Mirrors Dependency::get_registry_path: base.join(format ("{}-{}", name, version)). -/
def Dependency.get_registry_path (d : Dependency) (registry_base_path : FsPath) : FsPath :=
  registry_base_path ++ [d.name ++ "-" ++ d.version]

/-- Mirrors Dependency::is_available_in_registry: path.exists() && path.is_dir(). -/
def Dependency.is_available_in_registry (d : Dependency) (fs : FileSystem)
    (registry_base_path : FsPath) : Bool :=
  fs.pathExists (d.get_registry_path registry_base_path)
    && fs.isDir (d.get_registry_path registry_base_path)

/-- A collection of dependencies, mirroring struct DependencyCollection
(a Vec kept in insertion order, duplicates allowed). -/
structure DependencyCollection where
  deps : List Dependency
deriving Repr

/-- Mirrors DependencyCollection::new. -/
def DependencyCollection.new : DependencyCollection := ⟨[]⟩

/-- Mirrors DependencyCollection::add (Vec::push appends at the end). -/
def DependencyCollection.add (c : DependencyCollection) (d : Dependency) :
    DependencyCollection := ⟨c.deps ++ [d]⟩

/-- Mirrors DependencyCollection::len. -/
def DependencyCollection.len (c : DependencyCollection) : Nat := c.deps.length

/-- Mirrors DependencyCollection::get: the first entry with the given name. -/
def DependencyCollection.get (c : DependencyCollection) (name : String) :
    Option Dependency :=
  c.deps.find? (fun dep => dep.name == name)

/-- Mirrors DependencyCollection::get_version. -/
def DependencyCollection.get_version (c : DependencyCollection) (name : String) :
    Option String :=
  (c.get name).map (fun dep => dep.version)

/-- Mirrors DependencyCollection::contains_name. -/
def DependencyCollection.contains_name (c : DependencyCollection) (name : String) : Bool :=
  c.deps.any (fun dep => dep.name == name)

/-- Mirrors DependencyCollection::contains. -/
def DependencyCollection.containsPair (c : DependencyCollection)
    (name version : String) : Bool :=
  c.deps.any (fun dep => dep.name == name && dep.version == version)

/-! ## HashMap model

Rust HashMap String to String contents, as an association list with unique
keys; insert overwrites the value of an existing key and appends a fresh
key at the end. Iteration order of a HashMap is unspecified, so theorems
about maps only ever speak of membership, never of order.
-/

/-- Model of HashMap::insert on the key-value contents. -/
def insertAssoc (m : List (String × String)) (k v : String) : List (String × String) :=
  if m.any (fun p => p.1 == k) then
    m.map (fun p => if p.1 == k then (k, v) else p)
  else
    m ++ [(k, v)]

/-- Model of HashMap::get on the key-value contents. -/
def lookupAssoc (m : List (String × String)) (k : String) : Option String :=
  (m.find? (fun p => p.1 == k)).map (fun p => p.2)

/-- Mirrors DependencyCollection::to_map: collect name-version pairs into a
HashMap (collect inserts in iteration order, so a repeated name ends up
with the value of its last occurrence). -/
def DependencyCollection.to_map (c : DependencyCollection) : List (String × String) :=
  c.deps.foldl (fun m dep => insertAssoc m dep.name dep.version) []

/-- Mirrors DependencyCollection::from_map: add one Dependency per map entry. -/
def DependencyCollection.from_map (m : List (String × String)) : DependencyCollection :=
  m.foldl (fun c p => c.add ⟨p.1, p.2⟩) DependencyCollection.new

/-- Mirrors DependencyCollection::filter_available. -/
def DependencyCollection.filter_available (c : DependencyCollection) (fs : FileSystem)
    (registry_path : FsPath) : DependencyCollection :=
  c.deps.foldl
    (fun result dep =>
      if dep.is_available_in_registry fs registry_path then result.add dep else result)
    DependencyCollection.new

/-! ## Lockfile resolution (src/lib.rs lines 473-581) -/

/-- A package record of Cargo.lock, mirroring struct CargoLockPackage. -/
structure CargoLockPackage where
  name : String
  version : String
  source : Option String
deriving DecidableEq, Repr

/-- The contents of the package_versions HashMap for one name: all versions
of packages with that name, in lockfile file order. -/
def packageVersions (pkgs : List CargoLockPackage) (name : String) : List String :=
  (pkgs.filter (fun p => p.name == name)).map (fun p => p.version)

/-- Mirrors resolve_dependency_versions after the lockfile has been read and
parsed (the package list is the parsed [[package]] array in file order).
The Rust code first groups versions by name into a HashMap of Vecs in file
order, then walks the requested collection; a request whose name has an
entry takes the last version of the group, a request whose name has none is
skipped. Existence, read and parse failures of the lockfile live outside
this function. -/
def resolve_dependency_versions (pkgs : List CargoLockPackage)
    (dependencies : DependencyCollection) : DependencyCollection :=
  dependencies.deps.foldl
    (fun resolved dep =>
      match (packageVersions pkgs dep.name).getLast? with
      | some version => resolved.add ⟨dep.name, version⟩
      | none => resolved)
    DependencyCollection.new

/-! ## Manifest dependency extraction (src/lib.rs lines 312-471) -/

/-- The fragment of toml::Value the extractor inspects: as_bool is Some only
on booleans, as_str only on strings; every other TOML value shape (integer,
float, array, table, datetime) answers None to both and is collapsed into
one constructor. -/
inductive TomlValue where
  | bool (b : Bool)
  | str (s : String)
  | other
deriving DecidableEq, Repr

/-- Mirrors toml::Value::as_bool. -/
def TomlValue.asBool : TomlValue → Option Bool
  | .bool b => some b
  | _ => none

/-- Mirrors toml::Value::as_str. -/
def TomlValue.asStr : TomlValue → Option String
  | .str s => some s
  | _ => none

/-- Mirrors enum CargoDepSpec: a plain version string or a detailed table.
The table is the key-value contents of a HashMap of toml Values (keys are
unique in a parsed TOML table). -/
inductive CargoDepSpec where
  | simple (version : String)
  | detailed (table : List (String × TomlValue))
deriving DecidableEq, Repr

/-- Model of HashMap::get on a detailed dependency table. -/
def tableGet (table : List (String × TomlValue)) (k : String) : Option TomlValue :=
  (table.find? (fun p => p.1 == k)).map (fun p => p.2)

/-- Mirrors extract_version_from_spec: a plain string is taken as is; in a
detailed table a workspace key whose value as_bool defaults to false yields
the placeholder when true, otherwise a string-valued version key yields its
string, otherwise the wildcard. -/
def extract_version_from_spec (spec : CargoDepSpec) : String :=
  match spec with
  | .simple version => version
  | .detailed table =>
    if (match tableGet table "workspace" with
        | some w => w.asBool.getD false
        | none => false) then
      "workspace"
    else
      match tableGet table "version" with
      | some v =>
        match v.asStr with
        | some s => s
        | none => "*"
      | none => "*"

/-! ## Manifest scanning (src/lib.rs lines 251-310)

The directory tree is embedded as a nested inductive: an entry is a file
or a directory with a list of entries. Paths returned by the scanner are
component lists rooted at the scanned directory. The Rust check
name.starts_with (dot char) holds exactly when the first character of the
name is a dot.
-/

/-- A file-system tree entry: a plain file or a directory with contents. -/
inductive FsEntry where
  | file (name : String)
  | dir (name : String) (entries : List FsEntry)
deriving Repr

/-- Name of an entry. -/
def FsEntry.name : FsEntry → String
  | .file n => n
  | .dir n _ => n

/-- The hidden-directory test of the scanner: the name starts with a dot. -/
def hiddenName (n : String) : Bool := n.data.head? == some '.'

mutual
/-- Mirrors the body of find_cargo_toml_files_recursive for one directory
entry: a hidden directory is skipped outright; otherwise an entry named
Cargo.toml is collected, and a directory entry is recursed into. -/
def find_cargo_toml_in_entry (pre : FsPath) : FsEntry → List FsPath
  | .file n => if n == "Cargo.toml" then [pre ++ [n]] else []
  | .dir n sub =>
      if hiddenName n then []
      else
        (if n == "Cargo.toml" then [pre ++ [n]] else [])
          ++ find_cargo_toml_in_entries (pre ++ [n]) sub

/-- Mirrors the read_dir loop of find_cargo_toml_files_recursive over the
entries of one directory, in directory-entry order. -/
def find_cargo_toml_in_entries (pre : FsPath) : List FsEntry → List FsPath
  | [] => []
  | e :: rest => find_cargo_toml_in_entry pre e ++ find_cargo_toml_in_entries pre rest
end

/-- Mirrors find_cargo_toml_files: the root must be a directory (a file root
is the NotADirectory error; a missing root cannot be expressed, since the
argument is the tree itself); the scan then walks the root contents. -/
def find_cargo_toml_files : FsEntry → Except String (List FsPath)
  | .file n => .error ("Path is not a directory: " ++ n)
  | .dir _ entries => .ok (find_cargo_toml_in_entries [] entries)

/-- Specification-side characterisation of the paths the scanner should
produce: an entry named Cargo.toml sitting in the scanned contents, or one
reachable through a chain of non-hidden directories. -/
inductive ManifestAt : List FsEntry → FsPath → Prop
  | fileHere {es : List FsEntry}
      (h : FsEntry.file "Cargo.toml" ∈ es) : ManifestAt es ["Cargo.toml"]
  | dirHere {es : List FsEntry} {sub : List FsEntry}
      (h : FsEntry.dir "Cargo.toml" sub ∈ es) : ManifestAt es ["Cargo.toml"]
  | inDir {es : List FsEntry} {n : String} {sub : List FsEntry} {p : FsPath}
      (h : FsEntry.dir n sub ∈ es) (hn : hiddenName n = false)
      (hp : ManifestAt sub p) : ManifestAt es (n :: p)

/-! ## Registry path resolution (src/lib.rs lines 645-701)

The enumeration of the registry src directory is embedded as the list of
its entries in read_dir order, each carrying its name, whether it is a
directory, and its modification time when the metadata is readable
(timestamps are naturals).
-/

/-- One entry of the registry base directory as the locator sees it. -/
structure RegistryEntry where
  name : String
  isDir : Bool
  modified : Option Nat
deriving DecidableEq, Repr

/-- One step of the latest_dir fold of resolve_registry_path: a
non-directory or an entry without readable modification time leaves the
candidate unchanged; a qualifying entry replaces the candidate only when
strictly more recent. -/
def registry_step (latest : Option (String × Nat)) (e : RegistryEntry) :
    Option (String × Nat) :=
  if e.isDir then
    match e.modified with
    | some m =>
      match latest with
      | some (_, lm) => if lm < m then some (e.name, m) else latest
      | none => some (e.name, m)
    | none => latest
  else latest

/-- Mirrors the latest_dir fold of resolve_registry_path over the entries
of the registry base directory, in read_dir order. -/
def select_latest (entries : List RegistryEntry) : Option (String × Nat) :=
  entries.foldl registry_step none

/-- Mirrors the tail of resolve_registry_path: the selected directory, or
the NotFound error when no directory qualified. The walk up to the
enumeration (home directory, base path existence, read_dir) is outside. -/
def resolve_registry_path (entries : List RegistryEntry) : Except String String :=
  match select_latest entries with
  | some (dir, _) => .ok dir
  | none => .error "No registry directories found"

/-- The qualifying name-timestamp pairs of an enumeration, in order:
directories with readable modification metadata. -/
def qualPairs (entries : List RegistryEntry) : List (String × Nat) :=
  entries.filterMap
    (fun e => if e.isDir then e.modified.map (fun m => (e.name, m)) else none)

/-- Specification-side selection: the first element of a list attaining the
maximal timestamp. -/
def maxFirst : List (String × Nat) → Option (String × Nat)
  | [] => none
  | x :: xs =>
    match maxFirst xs with
    | none => some x
    | some y => if x.2 < y.2 then some y else some x

/-! ## Dependency availability and batch code-bank generation
(src/lib.rs lines 703-927) -/

/-- Mirrors construct_dependency_path. -/
def construct_dependency_path (registry_path : FsPath)
    (dependency_name dependency_version : String) : FsPath :=
  registry_path ++ [dependency_name ++ "-" ++ dependency_version]

/-- Mirrors is_dependency_available, which delegates to
Dependency::is_available_in_registry. -/
def is_dependency_available (fs : FileSystem) (registry_path : FsPath)
    (dependency : Dependency) : Bool :=
  dependency.is_available_in_registry fs registry_path

/-- Model of HashMap::insert for the name-to-path result map of the batch
code-bank generation, same insertion semantics as insertAssoc. -/
def insertAssocPath (m : List (String × FsPath)) (k : String) (v : FsPath) :
    List (String × FsPath) :=
  if m.any (fun p => p.1 == k) then
    m.map (fun p => if p.1 == k then (k, v) else p)
  else
    m ++ [(k, v)]

/-- The external code-bank generator (the codebank crate plus the output
write of generate_code_bank), abstracted as an oracle from the source path
and dependency name to either the generated file path or an error text. -/
structure CodeBankGen where
  run : FsPath → String → Except String FsPath

/-- One iteration of the generate_all_code_banks loop: an available
dependency is handed to the generator, whose success inserts into the
result map and whose failure appends a warning; an unavailable dependency
appends a warning. -/
def code_bank_step (fs : FileSystem) (gen : CodeBankGen) (registry_path : FsPath)
    (acc : List (String × FsPath) × List String) (dependency : Dependency) :
    List (String × FsPath) × List String :=
  if fs.pathExists (dependency.get_registry_path registry_path)
      && fs.isDir (dependency.get_registry_path registry_path) then
    match gen.run (dependency.get_registry_path registry_path) dependency.name with
    | .ok code_bank_file =>
      (insertAssocPath acc.1 dependency.name code_bank_file, acc.2)
    | .error e =>
      (acc.1, acc.2 ++ ["Failed to generate code bank for "
        ++ dependency.name ++ ": " ++ e])
  else
    (acc.1, acc.2 ++ ["Dependency not found: "
      ++ String.intercalate "/" (dependency.get_registry_path registry_path)])

/-- Mirrors generate_all_code_banks: walk the collection in order; an
unavailable dependency or a failed generation contributes a warning and is
skipped; a successful generation inserts into the result map. The first
component is the Result value of the Rust function (always Ok with the map
contents); the second is the warning list the Rust code prints to stderr. -/
def generate_all_code_banks (fs : FileSystem) (gen : CodeBankGen)
    (dependencies : DependencyCollection) (registry_path : FsPath) :
    Except String (List (String × FsPath)) × List String :=
  let state := dependencies.deps.foldl (code_bank_step fs gen registry_path) ([], [])
  (Except.ok state.1, state.2)

/-- Per-item success predicate of the batch: the dependency directory is
present and the generator succeeds on it. -/
def code_bank_item_ok (fs : FileSystem) (gen : CodeBankGen) (registry_path : FsPath)
    (dependency : Dependency) : Bool :=
  fs.pathExists (dependency.get_registry_path registry_path)
    && fs.isDir (dependency.get_registry_path registry_path)
    && (match gen.run (dependency.get_registry_path registry_path) dependency.name with
        | .ok _ => true
        | .error _ => false)

/-! ## Theorems: lockfile resolution (claims about resolve_dependency_versions) -/

/-- Folding the resolution step over a list appends the resolved entries,
one per request entry whose name has at least one lockfile package. -/
theorem resolve_fold_characterisation (pkgs : List CargoLockPackage)
    (l : List Dependency) (acc : DependencyCollection) :
    (l.foldl
      (fun resolved dep =>
        match (packageVersions pkgs dep.name).getLast? with
        | some version => resolved.add ⟨dep.name, version⟩
        | none => resolved)
      acc).deps
      = acc.deps
        ++ l.filterMap
          (fun dep =>
            (packageVersions pkgs dep.name).getLast?.map
              (fun version => (⟨dep.name, version⟩ : Dependency))) := by
  induction l generalizing acc with
  | nil => simp
  | cons d rest ih =>
      simp only [List.foldl_cons, List.filterMap_cons]
      cases h : (packageVersions pkgs d.name).getLast? with
      | none => simpa using ih acc
      | some v =>
          simp only [Option.map_some]
          rw [ih]
          simp [DependencyCollection.add]

/-- The resolved collection is the request filtered down to hits, each hit
renamed to the last locked version of its name. -/
theorem resolve_dependency_versions_deps (pkgs : List CargoLockPackage)
    (dependencies : DependencyCollection) :
    (resolve_dependency_versions pkgs dependencies).deps
      = dependencies.deps.filterMap
          (fun dep =>
            (packageVersions pkgs dep.name).getLast?.map
              (fun version => (⟨dep.name, version⟩ : Dependency))) := by
  have h := resolve_fold_characterisation pkgs dependencies.deps DependencyCollection.new
  simpa [resolve_dependency_versions, DependencyCollection.new] using h


/-- Every entry of the resolved collection stems from a request entry: it
carries that request name and the last locked version of that name. -/
theorem mem_resolve_dependency_versions (pkgs : List CargoLockPackage)
    (dependencies : DependencyCollection) (d : Dependency)
    (h : d ∈ (resolve_dependency_versions pkgs dependencies).deps) :
    ∃ req ∈ dependencies.deps, d.name = req.name
      ∧ (packageVersions pkgs d.name).getLast? = some d.version := by
  rw [resolve_dependency_versions_deps] at h
  rcases List.mem_filterMap.mp h with ⟨req, hreq, hmap⟩
  rcases Option.map_eq_some'.mp hmap with ⟨v, hv, hd⟩
  subst hd
  exact ⟨req, hreq, rfl, hv⟩

/-- In a list of request entries containing the name, the first resolved
entry with that name carries the last locked version of the name. -/
theorem find_resolved_of_any (pkgs : List CargoLockPackage) (n : String)
    (hn : packageVersions pkgs n ≠ []) (l : List Dependency)
    (hl : l.any (fun dep => dep.name == n) = true) :
    (l.filterMap
        (fun dep =>
          (packageVersions pkgs dep.name).getLast?.map
            (fun version => (⟨dep.name, version⟩ : Dependency)))).find?
        (fun dep => dep.name == n)
      = some ⟨n, (packageVersions pkgs n).getLast hn⟩ := by
  induction l with
  | nil => simp at hl
  | cons d rest ih =>
      rw [List.any_cons] at hl
      by_cases hd : d.name = n
      · rw [List.filterMap_cons, hd, List.getLast?_eq_getLast _ hn]
        simp [List.find?_cons]
      · have hrest : rest.any (fun dep => dep.name == n) = true := by
          rcases Bool.or_eq_true_iff.mp hl with h1 | h1
          · exact absurd (by simpa using h1) hd
          · exact h1
        rw [List.filterMap_cons]
        cases hlast : (packageVersions pkgs d.name).getLast? with
        | none => simpa using ih hrest
        | some v =>
            simp only [Option.map_some']
            rw [List.find?_cons_of_neg _ (by simpa using hd)]
            exact ih hrest

/-- Claim C2: for a lockfile listing at least one package with a given name
and a request containing that name, the resolved collection carries exactly
the last-listed version of that name in lockfile file order: the version
looked up by name is that last-listed version, and every resolved entry
with that name carries it, regardless of any semantic or lexicographic
ordering of the versions. -/
theorem resolved_version_is_last_lockfile_entry (pkgs : List CargoLockPackage)
    (dependencies : DependencyCollection) (n : String)
    (hreq : dependencies.contains_name n = true)
    (hn : packageVersions pkgs n ≠ []) :
    (resolve_dependency_versions pkgs dependencies).get_version n
        = some ((packageVersions pkgs n).getLast hn)
      ∧ ∀ d ∈ (resolve_dependency_versions pkgs dependencies).deps,
          d.name = n → d.version = (packageVersions pkgs n).getLast hn := by
  constructor
  · rw [DependencyCollection.get_version, DependencyCollection.get,
      resolve_dependency_versions_deps]
    rw [find_resolved_of_any pkgs n hn dependencies.deps hreq]
    rfl
  · intro d hd hdn
    obtain ⟨req, _, _, hlast⟩ := mem_resolve_dependency_versions pkgs dependencies d hd
    rw [hdn, List.getLast?_eq_getLast _ hn] at hlast
    exact (Option.some.injEq _ _ ▸ hlast).symm

/-- Witness for claim C2: the lockfile of the specification scenario lists
anyhow at 1.0.68 then 1.0.75; a request for anyhow resolves to 1.0.75. -/
theorem resolved_version_is_last_lockfile_entry_witness :
    (resolve_dependency_versions
        [⟨"anyhow", "1.0.68", some "registry"⟩, ⟨"anyhow", "1.0.75", some "registry"⟩]
        ⟨[⟨"anyhow", "1.0"⟩]⟩).get_version "anyhow" = some "1.0.75" := by
  have h := (resolved_version_is_last_lockfile_entry
    [⟨"anyhow", "1.0.68", some "registry"⟩, ⟨"anyhow", "1.0.75", some "registry"⟩]
    ⟨[⟨"anyhow", "1.0"⟩]⟩ "anyhow" (by decide) (by decide)).1
  exact h.trans (by decide)

/-- Counting lemma for the resolution walk: resolved entries plus request
entries whose name has no locked version add up to the request length. -/
theorem resolve_length_aux (pkgs : List CargoLockPackage) (l : List Dependency) :
    (l.filterMap
        (fun dep =>
          (packageVersions pkgs dep.name).getLast?.map
            (fun version => (⟨dep.name, version⟩ : Dependency)))).length
      + (l.filter (fun dep => (packageVersions pkgs dep.name).isEmpty)).length
      = l.length := by
  induction l with
  | nil => simp
  | cons d rest ih =>
      rw [List.filterMap_cons, List.filter_cons]
      cases h : packageVersions pkgs d.name with
      | nil =>
          simp only [h, List.getLast?_nil, Option.map_none', List.isEmpty_nil, if_true,
            List.length_cons]
          omega
      | cons v vs =>
          rw [List.getLast?_eq_getLast _ (List.cons_ne_nil v vs)]
          simp only [Option.map_some', List.isEmpty_cons, List.length_cons]
          rw [if_neg (by simp)]
          omega

/-- Claim C5: a requested name with no entry in the lockfile package list is
silently omitted: resolution (which, once the lockfile parses, never fails)
returns a collection from which the name is absent, and the resolved length
is the request length minus one for each request entry whose name has no
locked version. -/
theorem missing_name_silently_omitted (pkgs : List CargoLockPackage)
    (dependencies : DependencyCollection) (n : String)
    (_hreq : dependencies.contains_name n = true)
    (habs : ∀ p ∈ pkgs, p.name ≠ n) :
    (resolve_dependency_versions pkgs dependencies).contains_name n = false
      ∧ (resolve_dependency_versions pkgs dependencies).len
          + (dependencies.deps.filter
              (fun dep => (packageVersions pkgs dep.name).isEmpty)).length
        = dependencies.len := by
  have hvers : packageVersions pkgs n = [] := by
    rw [packageVersions, List.map_eq_nil_iff, List.filter_eq_nil_iff]
    intro p hp
    simpa using habs p hp
  constructor
  · rw [DependencyCollection.contains_name]
    by_contra hc
    rw [Bool.not_eq_false, List.any_eq_true] at hc
    obtain ⟨d, hd, hdn⟩ := hc
    obtain ⟨req, _, _, hlast⟩ := mem_resolve_dependency_versions pkgs dependencies d hd
    rw [show d.name = n by simpa using hdn, hvers] at hlast
    simp at hlast
  · rw [DependencyCollection.len, DependencyCollection.len,
      resolve_dependency_versions_deps]
    exact resolve_length_aux pkgs dependencies.deps

/-- Witness for claim C5: requesting serde (locked) and missing (absent from
the lockfile) resolves without error to a collection of length one from
which missing is absent. -/
theorem missing_name_silently_omitted_witness :
    (resolve_dependency_versions [⟨"serde", "1.0.150", some "registry"⟩]
        ⟨[⟨"serde", "1.0"⟩, ⟨"missing", "1.0"⟩]⟩).contains_name "missing" = false
      ∧ (resolve_dependency_versions [⟨"serde", "1.0.150", some "registry"⟩]
          ⟨[⟨"serde", "1.0"⟩, ⟨"missing", "1.0"⟩]⟩).len
        + ((⟨[⟨"serde", "1.0"⟩, ⟨"missing", "1.0"⟩]⟩ : DependencyCollection).deps.filter
            (fun dep =>
              (packageVersions [⟨"serde", "1.0.150", some "registry"⟩] dep.name).isEmpty)).length
        = (⟨[⟨"serde", "1.0"⟩, ⟨"missing", "1.0"⟩]⟩ : DependencyCollection).len :=
  missing_name_silently_omitted [⟨"serde", "1.0.150", some "registry"⟩]
    ⟨[⟨"serde", "1.0"⟩, ⟨"missing", "1.0"⟩]⟩ "missing" (by decide) (by decide)

/-- Counterexample to claim C1 as stated: the request lists the name a
twice, the lockfile locks a once; the resolved collection contains two
entries named a, not at most one per originally-requested name, because the
walk over the request does not deduplicate names. -/
theorem resolve_request_not_deduplicated_counterexample :
    ¬ (((resolve_dependency_versions [⟨"a", "1.0", none⟩]
          ⟨[⟨"a", "0.9"⟩, ⟨"a", "0.8"⟩]⟩).deps.filter
            (fun d => d.name == "a")).length ≤ 1) := by decide

/-- The resolved names form a sublist of the requested names. -/
theorem resolve_names_sublist (pkgs : List CargoLockPackage) (l : List Dependency) :
    ((l.filterMap
        (fun dep =>
          (packageVersions pkgs dep.name).getLast?.map
            (fun version => (⟨dep.name, version⟩ : Dependency)))).map Dependency.name).Sublist
      (l.map Dependency.name) := by
  induction l with
  | nil => simp
  | cons d rest ih =>
      rw [List.filterMap_cons, List.map_cons]
      cases h : (packageVersions pkgs d.name).getLast? with
      | none => exact ih.cons d.name
      | some v =>
          simp only [Option.map_some', List.map_cons]
          exact ih.cons₂ d.name

/-- Claim C1 amended: the resolution walk does not deduplicate requested
names, so a name occurring in several request entries yields one resolved
entry per occurrence; but whenever the request itself has pairwise-distinct
names, the resolved collection has at most one entry per name (its name
list is duplicate-free). -/
theorem resolve_nodup_request_nodup_result (pkgs : List CargoLockPackage)
    (dependencies : DependencyCollection)
    (h : (dependencies.deps.map Dependency.name).Nodup) :
    ((resolve_dependency_versions pkgs dependencies).deps.map Dependency.name).Nodup := by
  rw [resolve_dependency_versions_deps]
  exact h.sublist (resolve_names_sublist pkgs dependencies.deps)

/-- Witness for the amended claim C1: a duplicate-free two-name request
resolves to a collection with duplicate-free names. -/
theorem resolve_nodup_request_nodup_result_witness :
    ((resolve_dependency_versions [⟨"a", "1.0", none⟩, ⟨"b", "2.0", none⟩]
        ⟨[⟨"a", "0.9"⟩, ⟨"b", "1.9"⟩]⟩).deps.map Dependency.name).Nodup :=
  resolve_nodup_request_nodup_result [⟨"a", "1.0", none⟩, ⟨"b", "2.0", none⟩]
    ⟨[⟨"a", "0.9"⟩, ⟨"b", "1.9"⟩]⟩ (by decide)

/-! ## Theorems: DependencyCollection map conversions (claims C6 and C10) -/

/-- Unfolding lemma: find? on a cons whose head satisfies the predicate. -/
theorem find_cons_pos {α} (pred : α → Bool) (a : α) (l : List α) (h : pred a = true) :
    (a :: l).find? pred = some a := by
  simp [List.find?, h]

/-- Unfolding lemma: find? on a cons whose head fails the predicate. -/
theorem find_cons_neg {α} (pred : α → Bool) (a : α) (l : List α) (h : pred a = false) :
    (a :: l).find? pred = l.find? pred := by
  simp [List.find?, h]

/-- In the overwrite branch of insertAssoc, the inserted key is found with
the new value as soon as the key was present. -/
theorem find_replace_self (m : List (String × String)) (k v : String)
    (h : m.any (fun p => p.1 == k) = true) :
    (m.map (fun p => if p.1 == k then (k, v) else p)).find? (fun p => p.1 == k)
      = some (k, v) := by
  induction m with
  | nil => simp at h
  | cons p rest ih =>
      rw [List.map_cons]
      by_cases hp : (p.1 == k) = true
      · rw [if_pos (by simpa using hp)]
        exact find_cons_pos _ _ _ (by simp)
      · rw [List.any_cons] at h
        rcases Bool.or_eq_true_iff.mp h with h1 | h1
        · exact absurd h1 hp
        · rw [if_neg (by simpa using hp), find_cons_neg _ _ _ (by simpa using hp)]
          exact ih h1

/-- The overwrite branch of insertAssoc leaves the find? of any other key
unchanged. -/
theorem find_replace_ne (m : List (String × String)) (k v n : String)
    (hkn : k ≠ n) :
    (m.map (fun p => if p.1 == k then (k, v) else p)).find? (fun p => p.1 == n)
      = m.find? (fun p => p.1 == n) := by
  induction m with
  | nil => rfl
  | cons p rest ih =>
      rw [List.map_cons]
      by_cases hp : (p.1 == k) = true
      · have hpk : p.1 = k := by simpa using hp
        rw [if_pos hp, find_cons_neg (fun q => q.1 == n) (k, v) _ (by simpa using hkn),
          find_cons_neg (fun q => q.1 == n) p rest (by simp [hpk, hkn])]
        exact ih
      · rw [if_neg hp]
        by_cases hpn : (p.1 == n) = true
        · rw [find_cons_pos (fun q => q.1 == n) p _ hpn,
            find_cons_pos (fun q => q.1 == n) p rest hpn]
        · rw [find_cons_neg (fun q => q.1 == n) p _ (by simpa using hpn),
            find_cons_neg (fun q => q.1 == n) p rest (by simpa using hpn)]
          exact ih

/-- Looking up the key just inserted yields the value just inserted. -/
theorem lookupAssoc_insertAssoc_self (m : List (String × String)) (k v : String) :
    lookupAssoc (insertAssoc m k v) k = some v := by
  rw [insertAssoc]
  by_cases h : m.any (fun p => p.1 == k) = true
  · rw [if_pos h, lookupAssoc, find_replace_self m k v h]
    rfl
  · rw [if_neg h, lookupAssoc, List.find?_append]
    have hnone : m.find? (fun p => p.1 == k) = none := by
      rw [List.find?_eq_none]
      intro p hp
      rw [Bool.not_eq_true, List.any_eq_false] at h
      exact h p hp
    rw [hnone, find_cons_pos _ _ _ (by simp)]
    rfl

/-- Inserting under one key does not change the lookup of another key. -/
theorem lookupAssoc_insertAssoc_ne (m : List (String × String)) (k v n : String)
    (hkn : k ≠ n) :
    lookupAssoc (insertAssoc m k v) n = lookupAssoc m n := by
  rw [insertAssoc]
  by_cases h : m.any (fun p => p.1 == k) = true
  · rw [if_pos h, lookupAssoc, lookupAssoc, find_replace_ne m k v n hkn]
  · rw [if_neg h, lookupAssoc, lookupAssoc, List.find?_append]
    cases hm : m.find? (fun p => p.1 == n) with
    | some q => rfl
    | none =>
        rw [Option.none_or, find_cons_neg (fun q => q.1 == n) (k, v) [] (by simpa using hkn)]
        rfl

/-- Inserting a key absent from the map appends the pair at the end. -/
theorem insertAssoc_fresh (m : List (String × String)) (k v : String)
    (h : m.any (fun p => p.1 == k) = false) :
    insertAssoc m k v = m ++ [(k, v)] := by
  rw [insertAssoc, if_neg (by simp [h])]

/-- Collecting a duplicate-free collection into the map model just lists
its name-version pairs in order: every insertion hits a fresh key. -/
theorem to_map_fold_nodup (l : List Dependency) :
    ∀ m : List (String × String),
      (∀ d ∈ l, m.any (fun p => p.1 == d.name) = false) →
      (l.map Dependency.name).Nodup →
      l.foldl (fun m dep => insertAssoc m dep.name dep.version) m
        = m ++ l.map (fun d => (d.name, d.version)) := by
  induction l with
  | nil => intro m _ _; simp
  | cons d rest ih =>
      intro m hfresh hnodup
      rw [List.foldl_cons, insertAssoc_fresh m d.name d.version (hfresh d (List.mem_cons_self d rest))]
      rw [List.map_cons] at hnodup
      have hnotin : d.name ∉ rest.map Dependency.name := (List.nodup_cons.mp hnodup).1
      have htail := ih (m ++ [(d.name, d.version)])
        (by
          intro x hx
          rw [List.any_append]
          have h1 : m.any (fun p => p.1 == x.name) = false :=
            hfresh x (List.mem_cons_of_mem d hx)
          have h2 : d.name ≠ x.name := by
            intro hcontra
            exact hnotin (hcontra ▸ List.mem_map_of_mem Dependency.name hx)
          simp [h1, h2])
        (List.nodup_cons.mp hnodup).2
      rw [htail, List.map_cons, List.append_assoc]
      rfl

/-- Mirrored fold of from_map appends one dependency per map pair. -/
theorem from_map_fold (m : List (String × String)) :
    ∀ c : DependencyCollection,
      (m.foldl (fun c p => c.add ⟨p.1, p.2⟩) c).deps
        = c.deps ++ m.map (fun p => (⟨p.1, p.2⟩ : Dependency)) := by
  induction m with
  | nil => intro c; simp
  | cons p rest ih =>
      intro c
      rw [List.foldl_cons, ih, List.map_cons, DependencyCollection.add]
      simp

/-- Claim C6: when no two entries of a collection share a name, converting
to the map view and back preserves exactly the set of name-version pairs
(in fact the very list of entries). -/
theorem from_map_to_map_roundtrip (c : DependencyCollection)
    (h : (c.deps.map Dependency.name).Nodup) :
    ∀ n v : String,
      (⟨n, v⟩ : Dependency) ∈ (DependencyCollection.from_map c.to_map).deps
        ↔ (⟨n, v⟩ : Dependency) ∈ c.deps := by
  have hto : c.to_map = c.deps.map (fun d => (d.name, d.version)) := by
    rw [DependencyCollection.to_map]
    exact to_map_fold_nodup c.deps [] (by intro d _; rfl) h
  have hfrom : (DependencyCollection.from_map c.to_map).deps = c.deps := by
    rw [DependencyCollection.from_map, from_map_fold, hto, List.map_map]
    have : ((fun p : String × String => (⟨p.1, p.2⟩ : Dependency))
        ∘ fun d : Dependency => (d.name, d.version)) = id := by
      funext d
      rfl
    rw [this, List.map_id, DependencyCollection.new]
    simp
  intro n v
  rw [hfrom]

/-- Witness for claim C6: a concrete duplicate-free collection round-trips
through the map view, membership of the pair a maps to 1.0 preserved. -/
theorem from_map_to_map_roundtrip_witness :
    (⟨"a", "1.0"⟩ : Dependency)
        ∈ (DependencyCollection.from_map
            (DependencyCollection.to_map ⟨[⟨"a", "1.0"⟩, ⟨"b", "2.0"⟩]⟩)).deps
      ↔ (⟨"a", "1.0"⟩ : Dependency)
        ∈ (⟨[⟨"a", "1.0"⟩, ⟨"b", "2.0"⟩]⟩ : DependencyCollection).deps :=
  from_map_to_map_roundtrip ⟨[⟨"a", "1.0"⟩, ⟨"b", "2.0"⟩]⟩ (by decide) "a" "1.0"

/-- Folding insertions whose keys all differ from a name leaves the lookup
of that name unchanged. -/
theorem lookup_foldl_insert_ne (n : String) (l : List Dependency) :
    ∀ m : List (String × String), (∀ x ∈ l, x.name ≠ n) →
      lookupAssoc (l.foldl (fun m dep => insertAssoc m dep.name dep.version) m) n
        = lookupAssoc m n := by
  induction l with
  | nil => intro m _; rfl
  | cons d rest ih =>
      intro m hl
      rw [List.foldl_cons, ih _ (fun x hx => hl x (List.mem_cons_of_mem d hx)),
        lookupAssoc_insertAssoc_ne m d.name d.version n (hl d (List.mem_cons_self d rest))]

/-- Claim C10: when a name occurs several times in a collection, get and
get_version return the earliest-added matching entry, while the map view
built by to_map holds the version of the last-added entry of that name,
the opposite policy. -/
theorem get_first_added_to_map_last_added (c : DependencyCollection) (n : String)
    (l₁ l₂ l₃ l₄ : List Dependency) (d e : Dependency)
    (h1 : c.deps = l₁ ++ d :: l₂) (hd : d.name = n) (hl₁ : ∀ x ∈ l₁, x.name ≠ n)
    (h2 : c.deps = l₃ ++ e :: l₄) (he : e.name = n) (hl₄ : ∀ x ∈ l₄, x.name ≠ n) :
    c.get n = some d ∧ c.get_version n = some d.version
      ∧ lookupAssoc c.to_map n = some e.version := by
  have hget : c.get n = some d := by
    rw [DependencyCollection.get, h1, List.find?_append]
    have hnone : l₁.find? (fun dep => dep.name == n) = none := by
      rw [List.find?_eq_none]
      intro x hx
      simpa using hl₁ x hx
    rw [hnone, Option.none_or, find_cons_pos (fun dep => dep.name == n) d l₂
      (by simpa using hd)]
  refine ⟨hget, ?_, ?_⟩
  · rw [DependencyCollection.get_version, hget]
    rfl
  · rw [DependencyCollection.to_map, h2, List.foldl_append, List.foldl_cons]
    rw [lookup_foldl_insert_ne n l₄ _ hl₄]
    rw [show e.name = n from he] at *
    exact lookupAssoc_insertAssoc_self _ n e.version

/-- Witness for claim C10: with log declared at 0.4 and then again at 0.5,
get and get_version return the 0.4 entry while the map view holds 0.5. -/
theorem get_first_added_to_map_last_added_witness :
    (⟨[⟨"log", "0.4"⟩, ⟨"log", "0.5"⟩]⟩ : DependencyCollection).get "log"
        = some ⟨"log", "0.4"⟩
      ∧ (⟨[⟨"log", "0.4"⟩, ⟨"log", "0.5"⟩]⟩ : DependencyCollection).get_version "log"
        = some "0.4"
      ∧ lookupAssoc
          (DependencyCollection.to_map ⟨[⟨"log", "0.4"⟩, ⟨"log", "0.5"⟩]⟩) "log"
        = some "0.5" := by
  have h := get_first_added_to_map_last_added ⟨[⟨"log", "0.4"⟩, ⟨"log", "0.5"⟩]⟩ "log"
    [] [⟨"log", "0.5"⟩] [⟨"log", "0.4"⟩] [] ⟨"log", "0.4"⟩ ⟨"log", "0.5"⟩
    rfl rfl (by simp) rfl rfl (by simp)
  exact h

/-! ## Theorems: manifest version extraction (claim C3) -/

/-- Claim C3: the version text of a manifest entry is fixed by exactly one
rule: a plain string entry is kept verbatim; a detailed table carrying
workspace set to the boolean true yields the workspace placeholder no
matter what else the table holds; otherwise a string-valued version key
yields its string; otherwise the wildcard. -/
theorem extract_version_rule (table : List (String × TomlValue)) :
    (∀ v : String, extract_version_from_spec (.simple v) = v)
      ∧ (tableGet table "workspace" = some (.bool true) →
          extract_version_from_spec (.detailed table) = "workspace")
      ∧ (tableGet table "workspace" ≠ some (.bool true) →
          ∀ s : String, tableGet table "version" = some (.str s) →
            extract_version_from_spec (.detailed table) = s)
      ∧ (tableGet table "workspace" ≠ some (.bool true) →
          (∀ s : String, tableGet table "version" ≠ some (.str s)) →
            extract_version_from_spec (.detailed table) = "*") := by
  have hcond : ∀ hws : tableGet table "workspace" ≠ some (.bool true),
      (match tableGet table "workspace" with
        | some w => w.asBool.getD false
        | none => false) = false := by
    intro hws
    cases hw : tableGet table "workspace" with
    | none => rfl
    | some w =>
        cases w with
        | bool b =>
            cases b with
            | true => exact absurd hw hws
            | false => rfl
        | str s => rfl
        | other => rfl
  refine ⟨fun v => rfl, ?_, ?_, ?_⟩
  · intro h
    simp [extract_version_from_spec, h, TomlValue.asBool]
  · intro hws s hv
    rw [extract_version_from_spec]
    rw [if_neg (by rw [hcond hws]; simp)]
    rw [hv]
    rfl
  · intro hws hv
    rw [extract_version_from_spec]
    rw [if_neg (by rw [hcond hws]; simp)]
    cases hv2 : tableGet table "version" with
    | none => rfl
    | some v =>
        cases v with
        | str s => exact absurd hv2 (hv s)
        | bool b => rfl
        | other => rfl

/-- Witness for claim C3: a table with both the workspace flag and an
explicit version extracts to the workspace placeholder; dropping the flag,
the same table extracts to the version string; a bare table extracts to
the wildcard; a plain string extracts to itself. -/
theorem extract_version_rule_witness :
    extract_version_from_spec (.simple "1.0") = "1.0"
      ∧ extract_version_from_spec
          (.detailed [("workspace", .bool true), ("version", .str "2.0")]) = "workspace"
      ∧ extract_version_from_spec
          (.detailed [("version", .str "2.0"), ("features", .other)]) = "2.0"
      ∧ extract_version_from_spec (.detailed [("features", .other)]) = "*" := by
  refine ⟨(extract_version_rule []).1 "1.0", ?_, ?_, ?_⟩
  · exact (extract_version_rule
      [("workspace", .bool true), ("version", .str "2.0")]).2.1 (by decide)
  · exact (extract_version_rule
      [("version", .str "2.0"), ("features", .other)]).2.2.1 (by decide) "2.0" (by decide)
  · exact (extract_version_rule [("features", .other)]).2.2.2 (by decide)
      (fun s => by simp [tableGet])

/-! ## Theorems: registry availability (claim C7) -/

/-- Claim C7: the availability check is true exactly when the path obtained
by joining the registry base with name-dash-version exists and is a
directory, and an absent path gives the boolean false, never an error. -/
theorem is_dependency_available_iff (fs : FileSystem) (registry_path : FsPath)
    (dependency : Dependency) :
    (is_dependency_available fs registry_path dependency = true
        ↔ fs.pathExists (registry_path ++ [dependency.name ++ "-" ++ dependency.version]) = true
          ∧ fs.isDir (registry_path ++ [dependency.name ++ "-" ++ dependency.version]) = true)
      ∧ (fs.pathExists (registry_path ++ [dependency.name ++ "-" ++ dependency.version]) = false →
          is_dependency_available fs registry_path dependency = false) := by
  constructor
  · rw [is_dependency_available, Dependency.is_available_in_registry,
      Dependency.get_registry_path, Bool.and_eq_true]
  · intro h
    rw [is_dependency_available, Dependency.is_available_in_registry,
      Dependency.get_registry_path, h, Bool.false_and]

/-- Witness for claim C7: on a file system with no paths at all, the
availability of serde 1.0.150 under a registry base is the boolean false. -/
theorem is_dependency_available_iff_witness :
    is_dependency_available ⟨fun _ => false, fun _ => false⟩ ["registry", "src"]
      ⟨"serde", "1.0.150"⟩ = false :=
  (is_dependency_available_iff ⟨fun _ => false, fun _ => false⟩ ["registry", "src"]
    ⟨"serde", "1.0.150"⟩).2 rfl

/-! ## Theorems: registry path selection (claim C8) -/

/-- A non-directory entry leaves the fold candidate unchanged. -/
theorem registry_step_not_dir (latest : Option (String × Nat)) (e : RegistryEntry)
    (h : e.isDir = false) : registry_step latest e = latest := by
  rw [registry_step, if_neg (by simp [h])]

/-- A directory without readable metadata leaves the fold candidate
unchanged. -/
theorem registry_step_no_meta (latest : Option (String × Nat)) (e : RegistryEntry)
    (h1 : e.isDir = true) (h2 : e.modified = none) : registry_step latest e = latest := by
  rw [registry_step, if_pos h1, h2]

/-- A qualifying directory becomes the candidate when there was none. -/
theorem registry_step_fresh (e : RegistryEntry) (m : Nat)
    (h1 : e.isDir = true) (h2 : e.modified = some m) :
    registry_step none e = some (e.name, m) := by
  rw [registry_step, if_pos h1, h2]

/-- A qualifying directory replaces the candidate exactly when strictly
more recent. -/
theorem registry_step_update (e : RegistryEntry) (m : Nat) (na : String) (ma : Nat)
    (h1 : e.isDir = true) (h2 : e.modified = some m) :
    registry_step (some (na, ma)) e
      = if ma < m then some (e.name, m) else some (na, ma) := by
  rw [registry_step, if_pos h1, h2]

/-- Two-step unfolding of the first-attains-maximum selector: the first two
elements can be collapsed into their strictly-later-wins combination. -/
theorem maxFirst_cons_cons (a b : String × Nat) (l : List (String × Nat)) :
    maxFirst (a :: b :: l) = maxFirst ((if a.2 < b.2 then b else a) :: l) := by
  show (match maxFirst (b :: l) with
        | none => some a
        | some y => if a.2 < y.2 then some y else some a)
      = maxFirst ((if a.2 < b.2 then b else a) :: l)
  show (match (match maxFirst l with
              | none => some b
              | some y => if b.2 < y.2 then some y else some b) with
        | none => some a
        | some y => if a.2 < y.2 then some y else some a)
      = (match maxFirst l with
        | none => some (if a.2 < b.2 then b else a)
        | some y => if (if a.2 < b.2 then b else a).2 < y.2
            then some y
            else some (if a.2 < b.2 then b else a))
  cases maxFirst l with
  | none =>
      by_cases hab : a.2 < b.2 <;> simp [hab]
  | some y =>
      by_cases hab : a.2 < b.2 <;> by_cases hby : b.2 < y.2 <;>
        by_cases hay : a.2 < y.2 <;> simp [hab, hby, hay] <;> omega

/-- The selector fold of resolve_registry_path computes the first qualifying
directory attaining the maximal timestamp, with the accumulator acting as
the earliest candidate. -/
theorem select_fold_eq_maxFirst (entries : List RegistryEntry) :
    ∀ acc : Option (String × Nat),
      entries.foldl registry_step acc = maxFirst (acc.toList ++ qualPairs entries) := by
  induction entries with
  | nil =>
      intro acc
      cases acc with
      | none => rfl
      | some a => simp [qualPairs, maxFirst]
  | cons e rest ih =>
      intro acc
      rw [List.foldl_cons]
      by_cases hdir : e.isDir = true
      · cases hmod : e.modified with
        | none =>
            rw [registry_step_no_meta acc e hdir hmod, ih acc]
            have hq : qualPairs (e :: rest) = qualPairs rest := by
              simp [qualPairs, List.filterMap_cons, hdir, hmod]
            rw [hq]
        | some m =>
            have hq : qualPairs (e :: rest) = (e.name, m) :: qualPairs rest := by
              simp [qualPairs, List.filterMap_cons, hdir, hmod]
            cases acc with
            | none =>
                rw [registry_step_fresh e m hdir hmod, ih (some (e.name, m)), hq]
                rfl
            | some a =>
                rcases a with ⟨na, ma⟩
                rw [registry_step_update e m na ma hdir hmod, hq]
                have hcc := maxFirst_cons_cons (na, ma) (e.name, m) (qualPairs rest)
                by_cases hm : ma < m
                · rw [if_pos hm, ih (some (e.name, m))]
                  rw [show ((na, ma) :: (e.name, m) :: qualPairs rest : List (String × Nat))
                      = (some (na, ma)).toList ++ ((e.name, m) :: qualPairs rest) from rfl] at hcc
                  rw [hcc, if_pos hm]
                  rfl
                · rw [if_neg hm, ih (some (na, ma))]
                  rw [show ((na, ma) :: (e.name, m) :: qualPairs rest : List (String × Nat))
                      = (some (na, ma)).toList ++ ((e.name, m) :: qualPairs rest) from rfl] at hcc
                  rw [hcc, if_neg hm]
                  rfl
      · rw [registry_step_not_dir acc e (by simpa using hdir), ih acc]
        have hq : qualPairs (e :: rest) = qualPairs rest := by
          simp [qualPairs, List.filterMap_cons, hdir]
        rw [hq]

/-- The selector only ever returns an element of its input list. -/
theorem maxFirst_mem (l : List (String × Nat)) (y : String × Nat)
    (h : maxFirst l = some y) : y ∈ l := by
  induction l generalizing y with
  | nil => simp [maxFirst] at h
  | cons x xs ih =>
      rw [maxFirst] at h
      split at h
      · injection h with h
        subst h
        exact List.mem_cons_self x xs
      · rename_i z hz
        split at h
        · injection h with h
          subst h
          exact List.mem_cons_of_mem x (ih z hz)
        · injection h with h
          subst h
          exact List.mem_cons_self x xs

/-- The selector returns the first element attaining the maximum: every
earlier element is strictly smaller, every later one at most as large. -/
theorem maxFirst_first_max (l₁ l₂ : List (String × Nat)) (n : String) (m : Nat)
    (h1 : ∀ x ∈ l₁, x.2 < m) (h2 : ∀ x ∈ l₂, x.2 ≤ m) :
    maxFirst (l₁ ++ (n, m) :: l₂) = some (n, m) := by
  induction l₁ with
  | nil =>
      rw [List.nil_append, maxFirst]
      cases hL : maxFirst l₂ with
      | none => rfl
      | some y =>
          have hy : y.2 ≤ m := h2 y (maxFirst_mem l₂ y hL)
          show (if (n, m).2 < y.2 then some y else some (n, m)) = some (n, m)
          rw [if_neg (by simp; omega)]
  | cons a l₁ ih =>
      rw [List.cons_append, maxFirst, ih (fun x hx => h1 x (List.mem_cons_of_mem a hx))]
      show (if a.2 < (n, m).2 then some (n, m) else some a) = some (n, m)
      rw [if_pos (by simpa using h1 a (List.mem_cons_self a l₁))]

/-- Claim C8: whenever the qualifying subdirectories (directories with
readable modification metadata) decompose as earlier-all-strictly-older,
one entry at timestamp m, later-all-at-most-m, that entry is the first to
attain the maximal timestamp, and resolve_registry_path returns exactly it:
maximal timestamp wins, first-seen wins on exact ties. -/
theorem resolve_registry_path_picks_first_latest (entries : List RegistryEntry)
    (n : String) (m : Nat) (l₁ l₂ : List (String × Nat))
    (hq : qualPairs entries = l₁ ++ (n, m) :: l₂)
    (h1 : ∀ x ∈ l₁, x.2 < m) (h2 : ∀ x ∈ l₂, x.2 ≤ m) :
    resolve_registry_path entries = .ok n ∧ select_latest entries = some (n, m) := by
  have hsel : select_latest entries = some (n, m) := by
    rw [select_latest, select_fold_eq_maxFirst entries none]
    rw [show (none : Option (String × Nat)).toList ++ qualPairs entries
        = qualPairs entries from rfl]
    rw [hq]
    exact maxFirst_first_max l₁ l₂ n m h1 h2
  refine ⟨?_, hsel⟩
  rw [resolve_registry_path, hsel]

/-- Witness for claim C8: among an older directory, a directory at the
maximal timestamp 9, a tying directory also at 9, a plain file, and a
directory without metadata, the first directory with timestamp 9 is
returned. -/
theorem resolve_registry_path_picks_first_latest_witness :
    resolve_registry_path
        [⟨"index.crates.io-old", true, some 5⟩, ⟨"index.crates.io-new", true, some 9⟩,
          ⟨"index.crates.io-tie", true, some 9⟩, ⟨"stray-file", false, some 100⟩,
          ⟨"no-metadata", true, none⟩]
      = .ok "index.crates.io-new" :=
  (resolve_registry_path_picks_first_latest
    [⟨"index.crates.io-old", true, some 5⟩, ⟨"index.crates.io-new", true, some 9⟩,
      ⟨"index.crates.io-tie", true, some 9⟩, ⟨"stray-file", false, some 100⟩,
      ⟨"no-metadata", true, none⟩]
    "index.crates.io-new" 9 [("index.crates.io-old", 5)] [("index.crates.io-tie", 9)]
    (by decide) (by decide) (by decide)).1

/-! ## Theorems: batch code-bank generation (claim C9) -/

/-- Step equation: an available dependency with a successful generation
inserts into the result map and leaves the warnings unchanged. -/
theorem code_bank_step_ok (fs : FileSystem) (gen : CodeBankGen) (registry_path : FsPath)
    (acc : List (String × FsPath) × List String) (d : Dependency) (f : FsPath)
    (hav : (fs.pathExists (d.get_registry_path registry_path)
        && fs.isDir (d.get_registry_path registry_path)) = true)
    (hg : gen.run (d.get_registry_path registry_path) d.name = Except.ok f) :
    code_bank_step fs gen registry_path acc d = (insertAssocPath acc.1 d.name f, acc.2) := by
  rw [code_bank_step, if_pos hav, hg]

/-- Step equation: an available dependency with a failed generation keeps
the map and appends one warning. -/
theorem code_bank_step_err (fs : FileSystem) (gen : CodeBankGen) (registry_path : FsPath)
    (acc : List (String × FsPath) × List String) (d : Dependency) (e : String)
    (hav : (fs.pathExists (d.get_registry_path registry_path)
        && fs.isDir (d.get_registry_path registry_path)) = true)
    (hg : gen.run (d.get_registry_path registry_path) d.name = Except.error e) :
    code_bank_step fs gen registry_path acc d
      = (acc.1, acc.2 ++ ["Failed to generate code bank for " ++ d.name ++ ": " ++ e]) := by
  rw [code_bank_step, if_pos hav, hg]

/-- Step equation: an unavailable dependency keeps the map and appends one
warning. -/
theorem code_bank_step_unavail (fs : FileSystem) (gen : CodeBankGen)
    (registry_path : FsPath) (acc : List (String × FsPath) × List String) (d : Dependency)
    (hav : (fs.pathExists (d.get_registry_path registry_path)
        && fs.isDir (d.get_registry_path registry_path)) = false) :
    code_bank_step fs gen registry_path acc d
      = (acc.1, acc.2 ++ ["Dependency not found: "
          ++ String.intercalate "/" (d.get_registry_path registry_path)]) := by
  rw [code_bank_step, if_neg (by simp [hav])]

/-- Inserting into the result map preserves its keys, appending the new key
only when absent. -/
theorem insertAssocPath_keys (m : List (String × FsPath)) (k : String) (v : FsPath) :
    (insertAssocPath m k v).map Prod.fst
      = if m.any (fun p => p.1 == k) then m.map Prod.fst else m.map Prod.fst ++ [k] := by
  rw [insertAssocPath]
  by_cases h : m.any (fun p => p.1 == k) = true
  · rw [if_pos h, if_pos h, List.map_map]
    apply List.map_congr_left
    intro p _
    by_cases hp : (p.1 == k) = true
    · simp only [Function.comp_apply, if_pos hp]
      exact (show p.1 = k from by simpa using hp).symm
    · simp only [Function.comp_apply, if_neg hp]
  · rw [if_neg h, if_neg h, List.map_append]
    rfl

/-- The key just inserted is a key of the result map. -/
theorem insertAssocPath_mem_keys (m : List (String × FsPath)) (k : String) (v : FsPath) :
    k ∈ (insertAssocPath m k v).map Prod.fst := by
  rw [insertAssocPath_keys]
  by_cases h : m.any (fun p => p.1 == k) = true
  · rw [if_pos h]
    rw [List.any_eq_true] at h
    obtain ⟨p, hp, hpk⟩ := h
    exact (show p.1 = k by simpa using hpk) ▸ List.mem_map_of_mem Prod.fst hp
  · rw [if_neg h]
    exact List.mem_append_right _ (List.mem_cons_self k [])

/-- Keys of a map survive an insertion. -/
theorem insertAssocPath_keys_mono (m : List (String × FsPath)) (k : String) (v : FsPath)
    (x : String) (hx : x ∈ m.map Prod.fst) : x ∈ (insertAssocPath m k v).map Prod.fst := by
  rw [insertAssocPath_keys]
  by_cases h : m.any (fun p => p.1 == k) = true
  · rw [if_pos h]; exact hx
  · rw [if_neg h]; exact List.mem_append_left _ hx

/-- Walking the batch loop from any state: the Ok map keeps its keys and
gains the name of every successful dependency, and exactly one warning is
appended per failed item. -/
theorem code_bank_fold_aux (fs : FileSystem) (gen : CodeBankGen) (registry_path : FsPath)
    (l : List Dependency) :
    ∀ acc : List (String × FsPath) × List String,
      (l.foldl (code_bank_step fs gen registry_path) acc).2.length
          = acc.2.length
            + (l.filter (fun d => !(code_bank_item_ok fs gen registry_path d))).length
        ∧ (∀ x, x ∈ acc.1.map Prod.fst →
            x ∈ (l.foldl (code_bank_step fs gen registry_path) acc).1.map Prod.fst)
        ∧ (∀ d ∈ l, code_bank_item_ok fs gen registry_path d = true →
            d.name ∈ (l.foldl (code_bank_step fs gen registry_path) acc).1.map Prod.fst) := by
  induction l with
  | nil =>
      intro acc
      refine ⟨by simp, fun x hx => hx, ?_⟩
      intro d hd
      simp at hd
  | cons d rest ih =>
      intro acc
      rw [List.foldl_cons]
      by_cases hav : (fs.pathExists (d.get_registry_path registry_path)
          && fs.isDir (d.get_registry_path registry_path)) = true
      · cases hg : gen.run (d.get_registry_path registry_path) d.name with
        | ok f =>
            have hok : code_bank_item_ok fs gen registry_path d = true := by
              rw [code_bank_item_ok, hg]
              simp [hav]
            rw [code_bank_step_ok fs gen registry_path acc d f hav hg]
            obtain ⟨hlen, hmono, hsucc⟩ := ih (insertAssocPath acc.1 d.name f, acc.2)
            refine ⟨?_, ?_, ?_⟩
            · rw [hlen, List.filter_cons, show (!(code_bank_item_ok fs gen registry_path d))
                = false by rw [hok]; rfl]
              simp
            · intro x hx
              exact hmono x (insertAssocPath_keys_mono acc.1 d.name f x hx)
            · intro x hx hxok
              rcases List.mem_cons.mp hx with hx1 | hx1
              · subst hx1
                exact hmono x.name (insertAssocPath_mem_keys acc.1 x.name f)
              · exact hsucc x hx1 hxok
        | error e =>
            have hok : code_bank_item_ok fs gen registry_path d = false := by
              rw [code_bank_item_ok, hg]
              simp
            rw [code_bank_step_err fs gen registry_path acc d e hav hg]
            obtain ⟨hlen, hmono, hsucc⟩ := ih (acc.1,
              acc.2 ++ ["Failed to generate code bank for " ++ d.name ++ ": " ++ e])
            refine ⟨?_, ?_, ?_⟩
            · rw [hlen, List.filter_cons, show (!(code_bank_item_ok fs gen registry_path d))
                = true by rw [hok]; rfl]
              simp only [List.length_append, List.length_cons, List.length_nil, if_true]
              omega
            · exact fun x hx => hmono x hx
            · intro x hx hxok
              rcases List.mem_cons.mp hx with hx1 | hx1
              · subst hx1
                exact absurd hxok (by rw [hok]; simp)
              · exact hsucc x hx1 hxok
      · have hok : code_bank_item_ok fs gen registry_path d = false := by
          rw [code_bank_item_ok]
          have h2 : (fs.pathExists (d.get_registry_path registry_path)
              && fs.isDir (d.get_registry_path registry_path)) = false := by
            simpa using hav
          rw [h2, Bool.false_and]
        rw [code_bank_step_unavail fs gen registry_path acc d (by simpa using hav)]
        obtain ⟨hlen, hmono, hsucc⟩ := ih (acc.1, acc.2 ++ ["Dependency not found: "
          ++ String.intercalate "/" (d.get_registry_path registry_path)])
        refine ⟨?_, ?_, ?_⟩
        · rw [hlen, List.filter_cons, show (!(code_bank_item_ok fs gen registry_path d))
            = true by rw [hok]; rfl]
          simp only [List.length_append, List.length_cons, List.length_nil, if_true]
          omega
        · exact fun x hx => hmono x hx
        · intro x hx hxok
          rcases List.mem_cons.mp hx with hx1 | hx1
          · subst hx1
            exact absurd hxok (by rw [hok]; simp)
          · exact hsucc x hx1 hxok

/-- Claim C9: the batch code-bank generation returns Ok for every file
system, generator behaviour and dependency collection: its Ok map contains
an entry for every dependency whose directory is present and whose
generation succeeds, and exactly one warning is collected per failing item
(absent directory or failed generation), which never turns the batch result
into an error. -/
theorem generate_all_code_banks_best_effort (fs : FileSystem) (gen : CodeBankGen)
    (dependencies : DependencyCollection) (registry_path : FsPath) :
    (∃ files, (generate_all_code_banks fs gen dependencies registry_path).1
        = Except.ok files
        ∧ ∀ d ∈ dependencies.deps, code_bank_item_ok fs gen registry_path d = true →
            d.name ∈ files.map Prod.fst)
      ∧ (generate_all_code_banks fs gen dependencies registry_path).2.length
        = (dependencies.deps.filter
            (fun d => !(code_bank_item_ok fs gen registry_path d))).length := by
  obtain ⟨hlen, _, hsucc⟩ := code_bank_fold_aux fs gen registry_path dependencies.deps ([], [])
  refine ⟨⟨(dependencies.deps.foldl (code_bank_step fs gen registry_path) ([], [])).1,
    rfl, hsucc⟩, ?_⟩
  show (dependencies.deps.foldl (code_bank_step fs gen registry_path) ([], [])).2.length = _
  simpa using hlen

/-- Witness for claim C9: with no path present and a generator that always
fails, requesting one dependency yields the Ok result with exactly one
collected warning. -/
theorem generate_all_code_banks_best_effort_witness :
    (∃ files, (generate_all_code_banks ⟨fun _ => false, fun _ => false⟩
        ⟨fun _ _ => .error "boom"⟩ ⟨[⟨"serde", "1.0.152"⟩]⟩ ["registry"]).1
        = Except.ok files
        ∧ ∀ d ∈ (⟨[⟨"serde", "1.0.152"⟩]⟩ : DependencyCollection).deps,
            code_bank_item_ok ⟨fun _ => false, fun _ => false⟩
              ⟨fun _ _ => .error "boom"⟩ ["registry"] d = true →
            d.name ∈ files.map Prod.fst)
      ∧ (generate_all_code_banks ⟨fun _ => false, fun _ => false⟩
          ⟨fun _ _ => .error "boom"⟩ ⟨[⟨"serde", "1.0.152"⟩]⟩ ["registry"]).2.length
        = ((⟨[⟨"serde", "1.0.152"⟩]⟩ : DependencyCollection).deps.filter
            (fun d => !(code_bank_item_ok ⟨fun _ => false, fun _ => false⟩
              ⟨fun _ _ => .error "boom"⟩ ["registry"] d))).length :=
  generate_all_code_banks_best_effort ⟨fun _ => false, fun _ => false⟩
    ⟨fun _ _ => .error "boom"⟩ ⟨[⟨"serde", "1.0.152"⟩]⟩ ["registry"]

/-! ## Theorems: manifest scanning (claim C4) -/

/-- Reaching a manifest among some entries still reaches it when an entry
is prepended. -/
theorem manifestAt_cons (e : FsEntry) (es : List FsEntry) (q : FsPath)
    (h : ManifestAt es q) : ManifestAt (e :: es) q := by
  cases h with
  | fileHere hmem => exact .fileHere (List.mem_cons_of_mem e hmem)
  | dirHere hmem => exact .dirHere (List.mem_cons_of_mem e hmem)
  | inDir hmem hn hp => exact .inDir (List.mem_cons_of_mem e hmem) hn hp

/-- Whatever the scan of one entry collects, the scan of any directory
containing that entry collects as well. -/
theorem entry_mem_entries (pre : FsPath) (e : FsEntry) (es : List FsEntry)
    (he : e ∈ es) (x : FsPath) (hx : x ∈ find_cargo_toml_in_entry pre e) :
    x ∈ find_cargo_toml_in_entries pre es := by
  induction es with
  | nil => exact absurd he (List.not_mem_nil e)
  | cons a rest ih =>
      rw [find_cargo_toml_in_entries, List.mem_append]
      rcases List.mem_cons.mp he with h1 | h1
      · exact Or.inl (h1 ▸ hx)
      · exact Or.inr (ih h1)

mutual
/-- Soundness of the scan of one entry: every collected path extends the
prefix with a chain the characterisation accepts in any directory holding
the entry. -/
theorem sound_entry (pre : FsPath) (e : FsEntry) (p : FsPath)
    (h : p ∈ find_cargo_toml_in_entry pre e) :
    ∃ q, p = pre ++ q ∧ ∀ es : List FsEntry, e ∈ es → ManifestAt es q := by
  cases e with
  | file n =>
      rw [find_cargo_toml_in_entry] at h
      by_cases hn : (n == "Cargo.toml") = true
      · rw [if_pos hn] at h
        have hpn : p = pre ++ [n] := by simpa using h
        have hn2 : n = "Cargo.toml" := by simpa using hn
        refine ⟨[n], hpn, fun es he => ?_⟩
        subst hn2
        exact ManifestAt.fileHere he
      · rw [if_neg hn] at h
        simp at h
  | dir n sub =>
      rw [find_cargo_toml_in_entry] at h
      by_cases hh : hiddenName n = true
      · rw [if_pos hh] at h
        simp at h
      · rw [if_neg hh, List.mem_append] at h
        rcases h with h | h
        · by_cases hn : (n == "Cargo.toml") = true
          · rw [if_pos hn] at h
            have hpn : p = pre ++ [n] := by simpa using h
            have hn2 : n = "Cargo.toml" := by simpa using hn
            refine ⟨[n], hpn, fun es he => ?_⟩
            subst hn2
            exact ManifestAt.dirHere he
          · rw [if_neg hn] at h
            simp at h
        · obtain ⟨q, hq, hm⟩ := sound_entries (pre ++ [n]) sub p h
          refine ⟨n :: q, by simp [hq], fun es he => ?_⟩
          exact ManifestAt.inDir he (by simpa using hh) hm

/-- Soundness of the scan of a directory content list. -/
theorem sound_entries (pre : FsPath) (es : List FsEntry) (p : FsPath)
    (h : p ∈ find_cargo_toml_in_entries pre es) :
    ∃ q, p = pre ++ q ∧ ManifestAt es q := by
  cases es with
  | nil =>
      rw [find_cargo_toml_in_entries] at h
      simp at h
  | cons e rest =>
      rw [find_cargo_toml_in_entries, List.mem_append] at h
      rcases h with h | h
      · obtain ⟨q, hq, hall⟩ := sound_entry pre e p h
        exact ⟨q, hq, hall (e :: rest) (List.mem_cons_self e rest)⟩
      · obtain ⟨q, hq, hm⟩ := sound_entries pre rest p h
        exact ⟨q, hq, manifestAt_cons e rest q hm⟩
end

/-- Completeness: every path the characterisation accepts is collected by
the scan, under any prefix. -/
theorem manifestAt_find (es : List FsEntry) (q : FsPath) (h : ManifestAt es q) :
    ∀ pre : FsPath, pre ++ q ∈ find_cargo_toml_in_entries pre es := by
  induction h with
  | fileHere hmem =>
      intro pre
      refine entry_mem_entries pre _ _ hmem _ ?_
      rw [find_cargo_toml_in_entry, if_pos (by decide)]
      simp
  | dirHere hmem =>
      intro pre
      refine entry_mem_entries pre _ _ hmem _ ?_
      rw [find_cargo_toml_in_entry, if_neg (by decide), List.mem_append]
      left
      rw [if_pos (by decide)]
      simp
  | inDir hmem hn hp ih =>
      rename_i es2 n sub p2
      intro pre
      refine entry_mem_entries pre _ _ hmem _ ?_
      rw [find_cargo_toml_in_entry, if_neg (by simp [hn]), List.mem_append]
      right
      have := ih (pre ++ [n])
      simpa using this

/-- Claim C4: scanning an existing directory succeeds, and the collected
paths are exactly the entries named Cargo.toml reachable through chains of
non-hidden directories: no path inside a directory whose name starts with
a dot is ever produced (such directories are never descended into), and
every Cargo.toml outside hidden directories is found. -/
theorem find_cargo_toml_files_characterisation (root_name : String)
    (entries : List FsEntry) :
    ∃ files, find_cargo_toml_files (FsEntry.dir root_name entries) = .ok files
      ∧ ∀ p, p ∈ files ↔ ManifestAt entries p := by
  refine ⟨find_cargo_toml_in_entries [] entries, rfl, fun p => ⟨?_, ?_⟩⟩
  · intro hp
    obtain ⟨q, hq, hm⟩ := sound_entries [] entries p hp
    rw [List.nil_append] at hq
    exact hq ▸ hm
  · intro hm
    have := manifestAt_find entries p hm []
    simpa using this

/-- Witness for claim C4: a tree with a manifest at the root, one in a
hidden directory and one in a visible subdirectory is characterised by the
theorem; in particular the scan of this tree collects the root manifest. -/
theorem find_cargo_toml_files_characterisation_witness :
    ["Cargo.toml"] ∈ find_cargo_toml_in_entries []
      [FsEntry.file "Cargo.toml", FsEntry.dir ".git" [FsEntry.file "Cargo.toml"],
        FsEntry.dir "sub" [FsEntry.file "Cargo.toml"]] := by
  obtain ⟨files, hok, hiff⟩ := find_cargo_toml_files_characterisation "root"
    [FsEntry.file "Cargo.toml", FsEntry.dir ".git" [FsEntry.file "Cargo.toml"],
      FsEntry.dir "sub" [FsEntry.file "Cargo.toml"]]
  have hfiles : files = find_cargo_toml_in_entries []
      [FsEntry.file "Cargo.toml", FsEntry.dir ".git" [FsEntry.file "Cargo.toml"],
        FsEntry.dir "sub" [FsEntry.file "Cargo.toml"]] := by
    have := hok
    rw [find_cargo_toml_files] at this
    exact (Except.ok.injEq _ _ ▸ this).symm
  rw [← hfiles]
  exact (hiff ["Cargo.toml"]).mpr (ManifestAt.fileHere (List.mem_cons_self _ _))
